import Mathlib

/-!
Verification of the standupbot core against its natural-language
specification.

The development shallowly embeds the Python sources:

* `standupbot/audio.py`   — the `_audio_callback` gate and the energy-based
  VAD loop of `AudioCapture.utterances` (here: `audioCallback`,
  `acceptFrame`, `utterances`);
* `standupbot/analyzer.py` — `add_to_history`, `check_keywords`,
  `generate_response`, `force_trigger` of class `Analyzer`;
* `standupbot/app.py`     — one iteration of the `_run_pipeline` loop body
  (`pipelineStep`).

Audio samples are modelled as rationals, Python strings as `List Char`,
monotonic timestamps as rationals.  The external `claude -p` subprocess is
modelled as a function argument from the prompt to a `ProcResult`.
-/

namespace StandupBot

/-- A captured audio block: a list of mono samples (Python: a numpy
float array).  The driver delivers fixed-size blocks but the model allows
any length. -/
abbrev Frame := List ℚ

/-- Sum of squared samples of a frame (`np.mean(chunk ** 2) * len(chunk)`). -/
def sumSq (c : Frame) : ℚ := (c.map fun x => x * x).sum

/-- `energy >= threshold` for `energy = sqrt(mean(chunk ** 2))`
(audio.py line 76/78), stated without square roots: for a threshold
`thr ≥ 0` and a nonempty chunk, `sqrt(sumSq c / len c) ≥ thr` holds exactly
when `thr² · len c ≤ sumSq c`; a negative threshold is below every energy. -/
def rmsGE (thr : ℚ) (c : Frame) : Bool :=
  decide (thr ≤ 0) || decide (thr * thr * (c.length : ℚ) ≤ sumSq c)

/-- The segmenter's mutable locals in `AudioCapture.utterances`
(audio.py lines 66–67): the accumulation `buffer` and the running
`silence_samples` counter. -/
structure SegState where
  buffer : List Frame
  silenceSamples : ℕ
deriving DecidableEq

/-- The state at the top of `AudioCapture.utterances`: empty buffer,
zero trailing-silence counter. -/
def SegState.init : SegState := ⟨[], 0⟩

/-- One iteration of the VAD loop body of `AudioCapture.utterances`
(audio.py lines 76–89) on a dequeued `chunk`: returns the next state and
the yielded utterance, if any.  `silThr` is
`int(silence_duration_s * sample_rate)` (line 68). -/
def acceptFrame (thr : ℚ) (silThr : ℕ) (s : SegState) (chunk : Frame) :
    SegState × Option (List ℚ) :=
  if rmsGE thr chunk then
    (⟨s.buffer ++ [chunk], 0⟩, none)
  else if s.buffer = [] then
    (s, none)
  else
    let silence := s.silenceSamples + chunk.length
    if silThr ≤ silence then
      (⟨[], 0⟩, some (s.buffer ++ [chunk]).flatten)
    else
      (⟨s.buffer ++ [chunk], silence⟩, none)

/-- Running `AudioCapture.utterances` over a finite list of dequeued
frames: the final segmenter state and the utterances yielded, in order. -/
def utterances (thr : ℚ) (silThr : ℕ) : SegState → List Frame →
    SegState × List (List ℚ)
  | s, [] => (s, [])
  | s, c :: cs =>
    match acceptFrame thr silThr s c with
    | (s1, out) =>
      match utterances thr silThr s1 cs with
      | (s2, outs) => (s2, out.toList ++ outs)

/-- The segmentation pattern as the spec words it: somewhere in the frame
sequence, a contiguous run of frames with RMS ≥ threshold is immediately
followed by a contiguous run of frames with RMS < threshold whose
cumulative sample count reaches the silence-sample threshold. -/
def PatternL (thr : ℚ) (silThr : ℕ) (cs : List Frame) : Prop :=
  ∃ p ls qs r, cs = p ++ ls ++ qs ++ r ∧ ls ≠ [] ∧ qs ≠ [] ∧
    (∀ l ∈ ls, rmsGE thr l = true) ∧ (∀ q ∈ qs, rmsGE thr q = false) ∧
    silThr ≤ (qs.map List.length).sum

section Segmenter

variable (thr : ℚ) (silThr : ℕ)

theorem utterances_nil (s : SegState) : utterances thr silThr s [] = (s, []) := rfl

theorem utterances_cons (s : SegState) (c : Frame) (cs : List Frame) :
    utterances thr silThr s (c :: cs) =
      ((utterances thr silThr (acceptFrame thr silThr s c).1 cs).1,
        (acceptFrame thr silThr s c).2.toList ++
          (utterances thr silThr (acceptFrame thr silThr s c).1 cs).2) := rfl

theorem acceptFrame_loud (s : SegState) (c : Frame) (h : rmsGE thr c = true) :
    acceptFrame thr silThr s c = (⟨s.buffer ++ [c], 0⟩, none) := by
  simp [acceptFrame, h]

theorem acceptFrame_quiet_empty (s : SegState) (c : Frame)
    (h : rmsGE thr c = false) (hb : s.buffer = []) :
    acceptFrame thr silThr s c = (s, none) := by
  simp [acceptFrame, h, hb]

theorem acceptFrame_quiet_emit (s : SegState) (c : Frame)
    (h : rmsGE thr c = false) (hb : s.buffer ≠ [])
    (hs : silThr ≤ s.silenceSamples + c.length) :
    acceptFrame thr silThr s c = (SegState.init, some (s.buffer ++ [c]).flatten) := by
  simp [acceptFrame, h, hb, hs, SegState.init]

theorem acceptFrame_quiet_keep (s : SegState) (c : Frame)
    (h : rmsGE thr c = false) (hb : s.buffer ≠ [])
    (hs : ¬ silThr ≤ s.silenceSamples + c.length) :
    acceptFrame thr silThr s c =
      (⟨s.buffer ++ [c], s.silenceSamples + c.length⟩, none) := by
  simp [acceptFrame, h, hb, hs]

theorem utterances_append (xs ys : List Frame) :
    ∀ s : SegState,
      utterances thr silThr s (xs ++ ys) =
        ((utterances thr silThr (utterances thr silThr s xs).1 ys).1,
          (utterances thr silThr s xs).2 ++
            (utterances thr silThr (utterances thr silThr s xs).1 ys).2) := by
  induction xs with
  | nil => intro s; simp [utterances_nil]
  | cons c cs ih =>
    intro s
    simp [utterances_cons, ih, List.append_assoc]

/-- Once the buffer is nonempty, a contiguous quiet run whose sample count
(together with the standing counter) reaches the silence threshold forces
an emission somewhere inside that run. -/
theorem quiet_run_emits (qs : List Frame) :
    ∀ s : SegState, qs ≠ [] → (∀ q ∈ qs, rmsGE thr q = false) →
      s.buffer ≠ [] →
      silThr ≤ s.silenceSamples + (qs.map List.length).sum →
      (utterances thr silThr s qs).2 ≠ [] := by
  induction qs with
  | nil => intro s h; exact absurd rfl h
  | cons q rest ih =>
    intro s _ hq hbuf hsil
    have hq0 : rmsGE thr q = false := hq q (List.mem_cons_self q rest)
    by_cases hth : silThr ≤ s.silenceSamples + q.length
    · rw [utterances_cons, acceptFrame_quiet_emit thr silThr s q hq0 hbuf hth]
      simp
    · rw [utterances_cons, acceptFrame_quiet_keep thr silThr s q hq0 hbuf hth]
      simp only [Option.toList_none, List.nil_append]
      cases rest with
      | nil =>
        exfalso
        apply hth
        simpa using hsil
      | cons r rs =>
        apply ih ⟨s.buffer ++ [q], s.silenceSamples + q.length⟩ (by simp)
          (fun x hx => hq x (List.mem_cons_of_mem _ hx)) (by simp)
        simp only [List.map_cons, List.sum_cons] at hsil ⊢
        omega

theorem patternL_cons (c : Frame) (cs : List Frame)
    (h : PatternL thr silThr cs) : PatternL thr silThr (c :: cs) := by
  obtain ⟨p, ls, qs, r, heq, h1, h2, h3, h4, h5⟩ := h
  exact ⟨c :: p, ls, qs, r, by simp [heq], h1, h2, h3, h4, h5⟩

/-- If any utterance is emitted, then either the frame list opens with a
quiet run completing an utterance already pending in the starting state, or
the loud-run/quiet-run pattern occurs inside the list itself. -/
theorem emits_fwd (cs : List Frame) :
    ∀ s : SegState, (utterances thr silThr s cs).2 ≠ [] →
      (s.buffer ≠ [] ∧ ∃ qs r, cs = qs ++ r ∧ qs ≠ [] ∧
        (∀ q ∈ qs, rmsGE thr q = false) ∧
        silThr ≤ s.silenceSamples + (qs.map List.length).sum)
      ∨ PatternL thr silThr cs := by
  induction cs with
  | nil => intro s h; exact absurd rfl h
  | cons c rest ih =>
    intro s hne
    by_cases hL : rmsGE thr c = true
    · rw [utterances_cons, acceptFrame_loud thr silThr s c hL] at hne
      simp only [Option.toList_none, List.nil_append] at hne
      rcases ih _ hne with ⟨_, qs, r, hrest, hqne, hquiet, hsil⟩ | hpat
      · right
        exact ⟨[], [c], qs, r, by simp [hrest], by simp, hqne,
          by simp [hL], hquiet, by simpa using hsil⟩
      · right; exact patternL_cons thr silThr c rest hpat
    · have hL' : rmsGE thr c = false := by simpa using hL
      by_cases hbe : s.buffer = []
      · rw [utterances_cons, acceptFrame_quiet_empty thr silThr s c hL' hbe] at hne
        simp only [Option.toList_none, List.nil_append] at hne
        rcases ih s hne with ⟨hbuf, _⟩ | hpat
        · exact absurd hbe hbuf
        · right; exact patternL_cons thr silThr c rest hpat
      · by_cases hth : silThr ≤ s.silenceSamples + c.length
        · left
          exact ⟨hbe, [c], rest, rfl, by simp, by simp [hL'], by simpa using hth⟩
        · rw [utterances_cons, acceptFrame_quiet_keep thr silThr s c hL' hbe hth] at hne
          simp only [Option.toList_none, List.nil_append] at hne
          rcases ih _ hne with ⟨_, qs, r, hrest, hqne, hquiet, hsil⟩ | hpat
          · left
            refine ⟨hbe, c :: qs, r, by simp [hrest], by simp, ?_, ?_⟩
            · intro x hx
              rcases List.mem_cons.1 hx with hx | hx
              · exact hx ▸ hL'
              · exact hquiet x hx
            · simp only [List.map_cons, List.sum_cons] at hsil ⊢
              omega
          · right; exact patternL_cons thr silThr c rest hpat

/-- Every emitted utterance flattens either the pending buffer extended by
an initial stretch of the input, or a contiguous segment of the input whose
first frame is loud. -/
theorem span_fwd (cs : List Frame) :
    ∀ (s : SegState) (u : List ℚ), u ∈ (utterances thr silThr s cs).2 →
      (s.buffer ≠ [] ∧ ∃ mid r, cs = mid ++ r ∧ mid ≠ [] ∧
        u = (s.buffer ++ mid).flatten)
      ∨ (∃ p c' seg r, cs = p ++ (c' :: seg) ++ r ∧ rmsGE thr c' = true ∧
          u = (c' :: seg).flatten) := by
  induction cs with
  | nil => intro s u h; rw [utterances_nil] at h; simp at h
  | cons c rest ih
  =>
    intro s u hu
    by_cases hL : rmsGE thr c = true
    · rw [utterances_cons, acceptFrame_loud thr silThr s c hL] at hu
      simp only [Option.toList_none, List.nil_append] at hu
      rcases ih _ u hu with ⟨_, mid, r, hrest, hmne, hflat⟩ | ⟨p, c', seg, r, hrest, hc', hflat⟩
      · by_cases hbe : s.buffer = []
        · right
          refine ⟨[], c, mid, r, by simp [hrest], hL, ?_⟩
          simpa [hbe] using hflat
        · left
          refine ⟨hbe, c :: mid, r, by simp [hrest], by simp, ?_⟩
          simpa [List.append_assoc] using hflat
      · right
        exact ⟨c :: p, c', seg, r, by simp [hrest], hc', hflat⟩
    · have hL' : rmsGE thr c = false := by simpa using hL
      by_cases hbe : s.buffer = []
      · rw [utterances_cons, acceptFrame_quiet_empty thr silThr s c hL' hbe] at hu
        simp only [Option.toList_none, List.nil_append] at hu
        rcases ih s u hu with ⟨hbuf, _⟩ | ⟨p, c', seg, r, hrest, hc', hflat⟩
        · exact absurd hbe hbuf
        · right
          exact ⟨c :: p, c', seg, r, by simp [hrest], hc', hflat⟩
      · by_cases hth : silThr ≤ s.silenceSamples + c.length
        · rw [utterances_cons, acceptFrame_quiet_emit thr silThr s c hL' hbe hth] at hu
          simp only [Option.toList_some, List.cons_append, List.nil_append] at hu
          rcases List.mem_cons.1 hu with hu | hu
          · left
            exact ⟨hbe, [c], rest, rfl, by simp, hu⟩
          · rcases ih SegState.init u hu with ⟨hbuf, _⟩ | ⟨p, c', seg, r, hrest, hc', hflat⟩
            · exact absurd rfl hbuf
            · right
              exact ⟨c :: p, c', seg, r, by simp [hrest], hc', hflat⟩
        · rw [utterances_cons, acceptFrame_quiet_keep thr silThr s c hL' hbe hth] at hu
          simp only [Option.toList_none, List.nil_append] at hu
          rcases ih _ u hu with ⟨_, mid, r, hrest, hmne, hflat⟩ | ⟨p, c', seg, r, hrest, hc', hflat⟩
          · left
            refine ⟨hbe, c :: mid, r, by simp [hrest], by simp, ?_⟩
            simpa [List.append_assoc] using hflat
          · right
            exact ⟨c :: p, c', seg, r, by simp [hrest], hc', hflat⟩

end Segmenter

/-- Claim C1 (amended): for every finite frame sequence fed to the
segmenter from its initial state, (1) an utterance is emitted iff a
contiguous run of frames with RMS ≥ threshold is immediately followed by a
contiguous run of frames with RMS < threshold whose cumulative sample
count reaches the silence-sample threshold; (2) every emitted utterance
equals the concatenation of a contiguous segment of the input whose first
frame is loud — the full accumulation since the buffer was last empty,
which may also contain interior quiet frames whose runs fell short of the
threshold; (3) immediately after any emission the accumulation buffer is
empty and the trailing-silence counter is zero, and the emitted samples
are the flattened buffer-plus-current-frame. -/
theorem vad_segmentation_amended (thr : ℚ) (silThr : ℕ) (cs : List Frame) :
    ((utterances thr silThr SegState.init cs).2 ≠ [] ↔ PatternL thr silThr cs)
    ∧ (∀ u ∈ (utterances thr silThr SegState.init cs).2,
        ∃ p c seg r, cs = p ++ (c :: seg) ++ r ∧ rmsGE thr c = true ∧
          u = (c :: seg).flatten)
    ∧ (∀ (s : SegState) (c : Frame) (u : List ℚ),
        (acceptFrame thr silThr s c).2 = some u →
          (acceptFrame thr silThr s c).1 = SegState.init ∧
          u = (s.buffer ++ [c]).flatten) := by
  refine ⟨⟨?_, ?_⟩, ?_, ?_⟩
  · intro hne
    rcases emits_fwd thr silThr cs SegState.init hne with ⟨hbuf, _⟩ | hpat
    · exact absurd rfl hbuf
    · exact hpat
  · rintro ⟨p, ls, qs, r, heq, hls, hqs, hloud, hquiet, hsil⟩
    have hdecomp : p ++ ls ++ qs ++ r =
        (p ++ ls.dropLast) ++ ls.getLast hls :: (qs ++ r) := by
      conv_lhs => rw [← List.dropLast_append_getLast hls]
      simp [List.append_assoc]
    rw [heq, hdecomp, utterances_append, utterances_cons,
      acceptFrame_loud thr silThr _ _ (hloud _ (List.getLast_mem hls))]
    intro hcontra
    simp only [Option.toList_none, List.nil_append, List.append_eq_nil] at hcontra
    have hrest := hcontra.2
    rw [utterances_append] at hrest
    simp only [List.append_eq_nil] at hrest
    exact quiet_run_emits thr silThr qs _ hqs hquiet (by simp) (by simpa using hsil)
      hrest.1
  · intro u hu
    rcases span_fwd thr silThr cs SegState.init u hu with ⟨hbuf, _⟩ | hspan
    · exact absurd rfl hbuf
    · exact hspan
  · intro s c u hemit
    by_cases hL : rmsGE thr c = true
    · rw [acceptFrame_loud thr silThr s c hL] at hemit
      simp at hemit
    · have hL' : rmsGE thr c = false := by simpa using hL
      by_cases hbe : s.buffer = []
      · rw [acceptFrame_quiet_empty thr silThr s c hL' hbe] at hemit
        simp at hemit
      · by_cases hth : silThr ≤ s.silenceSamples + c.length
        · rw [acceptFrame_quiet_emit thr silThr s c hL' hbe hth] at hemit ⊢
          simp only [Option.some.injEq] at hemit
          exact ⟨rfl, hemit.symm⟩
        · rw [acceptFrame_quiet_keep thr silThr s c hL' hbe hth] at hemit
          simp at hemit

/-- The utterance-content clause of claim C1, rendered executably and
following the spec's words rather than the source: `u` equals the
concatenation of a contiguous run of loud frames (`cs[i..j)`) immediately
followed by a contiguous run of quiet frames (`cs[j..k)`) whose cumulative
sample count reaches the silence threshold. -/
def specLoudQuietSpan (thr : ℚ) (silThr : ℕ) (cs : List Frame) (u : List ℚ) : Bool :=
  (List.range (cs.length + 1)).any fun i =>
    (List.range (cs.length + 1)).any fun j =>
      (List.range (cs.length + 1)).any fun k =>
        decide (i < j) && decide (j < k) && decide (k ≤ cs.length) &&
        ((cs.drop i).take (j - i)).all (fun l => rmsGE thr l) &&
        ((cs.drop j).take (k - j)).all (fun q => !rmsGE thr q) &&
        decide (silThr ≤ (((cs.drop j).take (k - j)).map List.length).sum) &&
        decide (u = ((cs.drop i).take (k - i)).flatten)

/-- Claim C1 as stated fails on the code: with threshold 1 and a
silence-sample threshold of 2, the frame sequence loud, quiet, loud,
quiet, quiet (one sample each) emits the single utterance `[2,0,2,0,0]`
— the whole accumulation — which is not the concatenation of any
contiguous loud run followed by a contiguous quiet run reaching the
threshold (that span would be `[2,0,0]`). -/
theorem vad_segmentation_counterexample :
    (utterances 1 2 SegState.init [[2],[0],[2],[0],[0]]).2 = [[2,0,2,0,0]]
    ∧ specLoudQuietSpan 1 2 [[2],[0],[2],[0],[0]] [2,0,2,0,0] = false := by
  constructor
  · norm_num [utterances, acceptFrame, rmsGE, sumSq, SegState.init,
      List.cons_ne_nil]
  · norm_num [specLoudQuietSpan, rmsGE, sumSq, List.range_succ,
      List.cons_ne_nil]

/-- The capture callback `AudioCapture._audio_callback` (audio.py lines
30–40): invoked by the driver with the `speaking` flag's current value and
the captured block; drops the block while the bot is speaking, otherwise
appends it to the hand-off queue. -/
def audioCallback (speaking : Bool) (q : List Frame) (indata : Frame) :
    List Frame :=
  if speaking then q else q ++ [indata]

/-- A whole capture session: each event is (speaking flag at delivery,
delivered frame); the result is the hand-off queue contents the Segmenter
will consume, in arrival order. -/
def runCallbacks (events : List (Bool × Frame)) : List Frame :=
  events.foldl (fun q e => audioCallback e.1 q e.2) []

/-- Claim C3: frames delivered while `speaking` is set are dropped before
entering the hand-off queue and frames delivered while it is clear are
always enqueued — the queue equals the non-speaking frames in order — so
the utterances the segmenter emits are exactly those of the non-speaking
subsequence: a frame captured during speech never reaches any emitted
utterance. -/
theorem self_echo_suppression (events : List (Bool × Frame)) :
    (∀ (q : List Frame) (f : Frame), audioCallback true q f = q)
    ∧ (∀ (q : List Frame) (f : Frame), audioCallback false q f = q ++ [f])
    ∧ runCallbacks events = (events.filter fun e => !e.1).map Prod.snd
    ∧ ∀ (thr : ℚ) (silThr : ℕ),
        utterances thr silThr SegState.init (runCallbacks events) =
          utterances thr silThr SegState.init
            ((events.filter fun e => !e.1).map Prod.snd) := by
  have key : ∀ (evs : List (Bool × Frame)) (q : List Frame),
      evs.foldl (fun acc e => audioCallback e.1 acc e.2) q =
        q ++ (evs.filter fun e => !e.1).map Prod.snd := by
    intro evs
    induction evs with
    | nil => intro q; simp
    | cons e rest ih =>
      intro q
      cases e with
      | mk sp f =>
        rw [List.foldl_cons]
        cases sp
        · rw [show audioCallback false q f = q ++ [f] from rfl, ih]
          simp
        · rw [show audioCallback true q f = q from rfl, ih]
          simp
  have hq : runCallbacks events = (events.filter fun e => !e.1).map Prod.snd := by
    simpa using key events []
  exact ⟨fun q f => rfl, fun q f => rfl, hq, fun thr silThr => by rw [hq]⟩

/-- Python strings, modelled as character lists. -/
abbrev Str := List Char

/-- `str.lower()`. -/
def toLowerStr (s : Str) : Str := s.map Char.toLower

/-- Python's `needle in hay` substring test. -/
def containsSub (hay needle : Str) : Bool :=
  (List.range (hay.length + 1)).any fun i => needle.isPrefixOf (hay.drop i)

/-- `str.strip()`: leading and trailing whitespace removed. -/
def stripStr (s : Str) : Str :=
  ((s.dropWhile Char.isWhitespace).reverse.dropWhile Char.isWhitespace).reverse

/-- `TriggerConfig` (config.py lines 43–48). -/
structure Trigger where
  name : Str
  keywords : List Str
  prompt : Str
  cooldown_seconds : ℚ
deriving DecidableEq

/-- `dict.get(key, 0.0)` on the `_last_fired` map, modelled as an
association list. -/
def getD : List (Str × ℚ) → Str → ℚ
  | [], _ => 0
  | (k, v) :: rest, key => if k = key then v else getD rest key

/-- `dict[key] = value` on the `_last_fired` map. -/
def setK : List (Str × ℚ) → Str → ℚ → List (Str × ℚ)
  | [], key, v => [(key, v)]
  | (k, w) :: rest, key, v =>
    if k = key then (k, v) :: rest else (k, w) :: setK rest key v

/-- The mutable fields of `Analyzer` the claims concern (analyzer.py lines
26–27): the configured trigger list, the per-trigger last-fired map and the
transcript history. -/
structure AnalyzerState where
  triggers : List Trigger
  lastFired : List (Str × ℚ)
  history : List Str
deriving DecidableEq

/-- The inner keyword loop of `Analyzer.check_keywords` (analyzer.py lines
54–57): the first keyword whose lowercasing occurs in the lowercased text. -/
def findKw (tl : Str) : List Str → Option Str
  | [] => none
  | kw :: rest => if containsSub tl (toLowerStr kw) then some kw else findKw tl rest

/-- The outer trigger loop of `Analyzer.check_keywords` (analyzer.py lines
49–57): skip a trigger whose cooldown has not elapsed
(`now - last < cooldown_seconds`, `last` defaulting to `0.0`), otherwise
scan its keywords; the first hit wins. -/
def checkLoop (lf : List (Str × ℚ)) (now : ℚ) (tl : Str) :
    List Trigger → Option (Trigger × Str)
  | [] => none
  | t :: rest =>
    if now - getD lf t.name < t.cooldown_seconds then checkLoop lf now tl rest
    else
      match findKw tl t.keywords with
      | some kw => some (t, kw)
      | none => checkLoop lf now tl rest

/-- `Analyzer.check_keywords` (analyzer.py lines 44–59): lowercase the
text, scan the triggers, and on a match write `last_fired[name] = now`
before returning the (trigger, keyword) pair. -/
def checkKeywords (st : AnalyzerState) (text : Str) (now : ℚ) :
    Option (Trigger × Str) × AnalyzerState :=
  match checkLoop st.lastFired now (toLowerStr text) st.triggers with
  | some (t, kw) => (some (t, kw), { st with lastFired := setK st.lastFired t.name now })
  | none => (none, st)

/-- The per-trigger step of `check_keywords`: `none` when the trigger is
still cooling down or no keyword occurs, otherwise the first matching
keyword. -/
def tryTrigger (lf : List (Str × ℚ)) (now : ℚ) (tl : Str) (t : Trigger) :
    Option Str :=
  if now - getD lf t.name < t.cooldown_seconds then none
  else findKw tl t.keywords

/-- `Analyzer.add_to_history` (analyzer.py lines 38–42): append, then keep
only the last 20 entries. -/
def addToHistory (h : List Str) (text : Str) : List Str :=
  let h2 := h ++ [text]
  if 20 < h2.length then h2.drop (h2.length - 20) else h2

/-- Python `l[-n:]`: the last `n` entries (all of them when fewer). -/
def lastN (n : ℕ) (l : List Str) : List Str := l.drop (l.length - n)

/-- The prompt built by `Analyzer.generate_response` (analyzer.py lines
63–68): the newline-joined last 10 history entries as context, the latest
utterance, then the trigger's prompt template. -/
def buildPrompt (hist : List Str) (t : Trigger) (transcript : Str) : Str :=
  "Recent meeting transcript:\n".data
    ++ List.intercalate "\n".data (lastN 10 hist)
    ++ "\n\nLatest utterance: ".data ++ transcript
    ++ "\n\n".data ++ t.prompt

/-- Outcome of the external `claude -p` subprocess: exit status and decoded
standard output/error. -/
structure ProcResult where
  returncode : ℤ
  stdout : Str
  stderr : Str

/-- `Analyzer.generate_response` (analyzer.py lines 61–87) with the
subprocess invocation abstracted as `run` from the prompt to its result
(the flags after the prompt are fixed configuration): a non-zero exit
yields `"[Claude error: <stripped stderr>]"`, success yields the stripped
standard output. -/
def generateResponse (run : Str → ProcResult) (hist : List Str) (t : Trigger)
    (transcript : Str) : Str :=
  let r := run (buildPrompt hist t transcript)
  if r.returncode ≠ 0 then
    "[Claude error: ".data ++ stripStr r.stderr ++ "]".data
  else
    stripStr r.stdout

/-- `TriggerMatch` (analyzer.py lines 10–14). -/
structure TriggerMatch where
  trigger : Trigger
  matched_keyword : Str
  response : Str
deriving DecidableEq

/-- `Analyzer.force_trigger` (analyzer.py lines 101–105): respond to the
most recent history entry (empty when there is none) for the given
trigger, marking the keyword `"(manual)"`; the analyzer state is returned
unchanged because the method reads `_transcript_history` only. -/
def forceTrigger (run : Str → ProcResult) (st : AnalyzerState) (t : Trigger) :
    TriggerMatch × AnalyzerState :=
  let latest := st.history.getLastD []
  (⟨t, "(manual)".data, generateResponse run st.history t latest⟩, st)

/-- One iteration of the `_run_pipeline` loop body (app.py lines 121–157)
after transcription returned `text`: discard noise (`not text or
len(text.strip()) < 3`); otherwise, when auto-triggers are enabled, consult
`check_keywords`, record the text, and on a match generate the response
(in that order); when disabled, record the text only. -/
def pipelineStep (run : Str → ProcResult) (enabled : Bool) (now : ℚ)
    (st : AnalyzerState) (text : Str) : AnalyzerState × Option TriggerMatch :=
  if text = [] ∨ (stripStr text).length < 3 then (st, none)
  else if enabled then
    match checkKeywords st text now with
    | (some (t, kw), st1) =>
      let st2 := { st1 with history := addToHistory st1.history text }
      (st2, some ⟨t, kw, generateResponse run st2.history t text⟩)
    | (none, st1) => ({ st1 with history := addToHistory st1.history text }, none)
  else ({ st with history := addToHistory st.history text }, none)

theorem checkLoop_cons (lf : List (Str × ℚ)) (now : ℚ) (tl : Str)
    (t : Trigger) (rest : List Trigger) :
    checkLoop lf now tl (t :: rest) =
      match tryTrigger lf now tl t with
      | some kw => some (t, kw)
      | none => checkLoop lf now tl rest := by
  by_cases h : now - getD lf t.name < t.cooldown_seconds
  · simp [checkLoop, tryTrigger, h]
  · simp only [checkLoop, tryTrigger, if_neg h]

theorem tryTrigger_some (lf : List (Str × ℚ)) (now : ℚ) (tl : Str)
    (t : Trigger) (kw : Str) (h : tryTrigger lf now tl t = some kw) :
    ¬ (now - getD lf t.name < t.cooldown_seconds) ∧
      findKw tl t.keywords = some kw := by
  by_cases hc : now - getD lf t.name < t.cooldown_seconds
  · rw [tryTrigger, if_pos hc] at h
    exact absurd h (by simp)
  · rw [tryTrigger, if_neg hc] at h
    exact ⟨hc, h⟩

theorem findKw_some_iff (tl : Str) (kw : Str) (kws : List Str) :
    findKw tl kws = some kw ↔
      ∃ a b, kws = a ++ kw :: b
        ∧ (∀ k ∈ a, containsSub tl (toLowerStr k) = false)
        ∧ containsSub tl (toLowerStr kw) = true := by
  induction kws with
  | nil =>
    constructor
    · intro h; exact absurd h (by simp [findKw])
    · rintro ⟨a, b, heq, -, -⟩
      cases a <;> simp at heq
  | cons x rest ih =>
    constructor
    · intro h
      by_cases hx : containsSub tl (toLowerStr x) = true
      · rw [findKw, if_pos hx] at h
        obtain rfl : x = kw := Option.some.inj h
        exact ⟨[], rest, rfl, by simp, hx⟩
      · rw [findKw, if_neg hx] at h
        obtain ⟨a, b, heq, ha, hkw⟩ := ih.mp h
        refine ⟨x :: a, b, by simp [heq], ?_, hkw⟩
        intro k hk
        rcases List.mem_cons.1 hk with rfl | hk
        · simpa using hx
        · exact ha k hk
    · rintro ⟨a, b, heq, ha, hkw⟩
      cases a with
      | nil =>
        simp only [List.nil_append, List.cons.injEq] at heq
        obtain ⟨rfl, rfl⟩ := heq
        rw [findKw, if_pos hkw]
      | cons y a' =>
        simp only [List.cons_append, List.cons.injEq] at heq
        obtain ⟨rfl, rfl⟩ := heq
        have hy : containsSub tl (toLowerStr x) = false :=
          ha x (List.mem_cons_self x a')
        rw [findKw, if_neg (by simp [hy])]
        exact ih.mpr ⟨a', b, rfl, fun k hk => ha k (List.mem_cons_of_mem _ hk), hkw⟩

theorem checkLoop_some_iff (lf : List (Str × ℚ)) (now : ℚ) (tl : Str)
    (t : Trigger) (kw : Str) (trs : List Trigger) :
    checkLoop lf now tl trs = some (t, kw) ↔
      ∃ a b, trs = a ++ t :: b
        ∧ (∀ q ∈ a, tryTrigger lf now tl q = none)
        ∧ tryTrigger lf now tl t = some kw := by
  induction trs with
  | nil =>
    constructor
    · intro h; exact absurd h (by simp [checkLoop])
    · rintro ⟨a, b, heq, -, -⟩
      cases a <;> simp at heq
  | cons x rest ih =>
    rw [checkLoop_cons]
    cases hx : tryTrigger lf now tl x with
    | some k =>
      constructor
      · intro h
        simp only [Option.some.injEq, Prod.mk.injEq] at h
        obtain ⟨rfl, rfl⟩ := h
        exact ⟨[], rest, rfl, by simp, hx⟩
      · rintro ⟨a, b, heq, ha, ht⟩
        cases a with
        | nil =>
          simp only [List.nil_append, List.cons.injEq] at heq
          obtain ⟨rfl, rfl⟩ := heq
          rw [hx] at ht
          have hkk : k = kw := Option.some.inj ht
          rw [hkk]
        | cons y a' =>
          simp only [List.cons_append, List.cons.injEq] at heq
          obtain ⟨rfl, rfl⟩ := heq
          exact absurd hx (by simp [ha x (List.mem_cons_self x a')])
    | none =>
      constructor
      · intro h
        obtain ⟨a, b, heq, ha, ht⟩ := ih.mp h
        refine ⟨x :: a, b, by simp [heq], ?_, ht⟩
        intro q hq
        rcases List.mem_cons.1 hq with rfl | hq
        · exact hx
        · exact ha q hq
      · rintro ⟨a, b, heq, ha, ht⟩
        cases a with
        | nil =>
          simp only [List.nil_append, List.cons.injEq] at heq
          obtain ⟨rfl, rfl⟩ := heq
          rw [hx] at ht
          exact absurd ht (by simp)
        | cons y a' =>
          simp only [List.cons_append, List.cons.injEq] at heq
          obtain ⟨rfl, rfl⟩ := heq
          exact ih.mpr ⟨a', b, rfl, fun q hq => ha q (List.mem_cons_of_mem _ hq), ht⟩

theorem checkKeywords_fst (st : AnalyzerState) (text : Str) (now : ℚ) :
    (checkKeywords st text now).1 =
      checkLoop st.lastFired now (toLowerStr text) st.triggers := by
  unfold checkKeywords
  cases h : checkLoop st.lastFired now (toLowerStr text) st.triggers with
  | some p => cases p; simp
  | none => simp

theorem checkKeywords_snd_some (st : AnalyzerState) (text : Str) (now : ℚ)
    (t : Trigger) (kw : Str)
    (h : checkLoop st.lastFired now (toLowerStr text) st.triggers = some (t, kw)) :
    (checkKeywords st text now).2 =
      { st with lastFired := setK st.lastFired t.name now } := by
  unfold checkKeywords
  rw [h]

theorem checkKeywords_history (st : AnalyzerState) (text : Str) (now : ℚ) :
    (checkKeywords st text now).2.history = st.history := by
  unfold checkKeywords
  cases h : checkLoop st.lastFired now (toLowerStr text) st.triggers with
  | some p => cases p; simp
  | none => simp

theorem checkKeywords_triggers (st : AnalyzerState) (text : Str) (now : ℚ) :
    (checkKeywords st text now).2.triggers = st.triggers := by
  unfold checkKeywords
  cases h : checkLoop st.lastFired now (toLowerStr text) st.triggers with
  | some p => cases p; simp
  | none => simp

theorem getD_setK_self (m : List (Str × ℚ)) (k : Str) (v : ℚ) :
    getD (setK m k v) k = v := by
  induction m with
  | nil => simp [setK, getD]
  | cons p rest ih =>
    cases p with
    | mk k' w =>
      by_cases h : k' = k
      · simp [setK, getD, h]
      · simp [setK, getD, h, ih]

theorem lastN_eq (n : ℕ) (l : List Str) :
    lastN n l = (l.reverse.take n).reverse := by
  unfold lastN
  rw [List.take_reverse, List.reverse_reverse]

theorem lastN_lastN (n : ℕ) (l : List Str) : lastN n (lastN n l) = lastN n l := by
  rw [lastN_eq n l, lastN_eq, List.reverse_reverse, List.take_take]
  simp

theorem lastN_lastN_append (n : ℕ) (x y : List Str) :
    lastN n (lastN n x ++ y) = lastN n (x ++ y) := by
  rw [lastN_eq n (lastN n x ++ y), lastN_eq n (x ++ y)]
  congr 1
  rw [lastN_eq, List.reverse_append, List.reverse_reverse, List.reverse_append]
  rw [List.take_append_eq_append_take, List.take_append_eq_append_take,
    List.take_take]
  congr 2
  omega

theorem lastN_append_of_le (n : ℕ) (old l : List Str) (h : n ≤ l.length) :
    lastN n (old ++ l) = lastN n l := by
  rw [lastN_eq, lastN_eq]
  congr 1
  rw [List.reverse_append, List.take_append_eq_append_take,
    List.length_reverse, Nat.sub_eq_zero_of_le h]
  simp

theorem addToHistory_eq (h : List Str) (t : Str) :
    addToHistory h t = lastN 20 (h ++ [t]) := by
  unfold addToHistory lastN
  by_cases hl : 20 < (h ++ [t]).length
  · rw [if_pos hl]
  · rw [if_neg hl, Nat.sub_eq_zero_of_le (not_lt.mp hl), List.drop_zero]

theorem foldl_addToHistory (ts : List Str) :
    ∀ h : List Str, List.foldl addToHistory (lastN 20 h) ts = lastN 20 (h ++ ts) := by
  induction ts with
  | nil => intro h; simp
  | cons t rest ih =>
    intro h
    rw [List.foldl_cons, addToHistory_eq, lastN_lastN_append, ih (h ++ [t])]
    simp

/-- Claim C6: the history buffer holds at most 20 entries after every
`add_to_history`, and recording when full evicts the oldest entries:
folding any 25 texts into the empty buffer leaves exactly the last 20 of
them, in their original order — the 5 oldest are gone. -/
theorem history_window_bound :
    (∀ (h : List Str) (t : Str), (addToHistory h t).length ≤ 20)
    ∧ (∀ ts : List Str, ts.length = 25 →
        List.foldl addToHistory [] ts = ts.drop 5) := by
  constructor
  · intro h t
    unfold addToHistory
    by_cases hl : 20 < (h ++ [t]).length
    · simp only [if_pos hl, List.length_drop]
      omega
    · simp only [if_neg hl]
      omega
  · intro ts h25
    have h0 : ([] : List Str) = lastN 20 [] := rfl
    rw [h0, foldl_addToHistory]
    unfold lastN
    simp [h25]

/-- Claim C4: `check_keywords` returns `some (t, kw)` exactly when `t` is
the first trigger, in configured order, whose per-trigger step fires —
every earlier trigger is skipped by its cooldown or has no keyword in the
lowercased text — and within that trigger `kw` is the first keyword, in
configured order, whose lowercasing is a substring of the lowercased text;
returning an `Option` the call yields at most one match, and later
triggers are not consulted. -/
theorem first_match_selection (st : AnalyzerState) (text : Str) (now : ℚ)
    (t : Trigger) (kw : Str) :
    ((checkKeywords st text now).1 = some (t, kw) ↔
      ∃ a b, st.triggers = a ++ t :: b
        ∧ (∀ q ∈ a, tryTrigger st.lastFired now (toLowerStr text) q = none)
        ∧ tryTrigger st.lastFired now (toLowerStr text) t = some kw)
    ∧ (∀ kws : List Str, findKw (toLowerStr text) kws = some kw ↔
        ∃ a b, kws = a ++ kw :: b
          ∧ (∀ k ∈ a, containsSub (toLowerStr text) (toLowerStr k) = false)
          ∧ containsSub (toLowerStr text) (toLowerStr kw) = true) := by
  constructor
  · rw [checkKeywords_fst]
    exact checkLoop_some_iff st.lastFired now (toLowerStr text) t kw st.triggers
  · intro kws
    exact findKw_some_iff (toLowerStr text) kw kws

/-- Claim C2: when `check_keywords` matches trigger `t` at monotonic time
`now`, the last-fired entry for `t` is set to `now` inside the call itself
(before any response generation, which the model keeps outside
`checkKeywords`); any single later call at a time `t2` with
`t2 - now < cooldown` cannot return `t` again; and for
`t2 - now ≥ cooldown` the trigger is cooldown-eligible again and, when its
keyword occurs and no earlier trigger fires, it is matched. -/
theorem cooldown_enforcement (st : AnalyzerState) (text : Str) (now : ℚ)
    (t : Trigger) (kw : Str) (st2 : AnalyzerState)
    (h : checkKeywords st text now = (some (t, kw), st2)) :
    getD st2.lastFired t.name = now
    ∧ (∀ (text2 : Str) (t2 : ℚ) (tr : Trigger) (kw2 : Str) (st3 : AnalyzerState),
        t2 - now < t.cooldown_seconds →
        checkKeywords st2 text2 t2 = (some (tr, kw2), st3) → tr ≠ t)
    ∧ (∀ t2 : ℚ, t.cooldown_seconds ≤ t2 - now →
        ¬ (t2 - getD st2.lastFired t.name < t.cooldown_seconds))
    ∧ (∀ (text2 : Str) (t2 : ℚ) (kw2 : Str) (a b : List Trigger),
        t.cooldown_seconds ≤ t2 - now →
        st2.triggers = a ++ t :: b →
        (∀ q ∈ a, tryTrigger st2.lastFired t2 (toLowerStr text2) q = none) →
        findKw (toLowerStr text2) t.keywords = some kw2 →
        (checkKeywords st2 text2 t2).1 = some (t, kw2)) := by
  have hloop : checkLoop st.lastFired now (toLowerStr text) st.triggers =
      some (t, kw) := by
    rw [← checkKeywords_fst, h]
  have hst2 : st2 = { st with lastFired := setK st.lastFired t.name now } := by
    rw [← checkKeywords_snd_some st text now t kw hloop, h]
  have ha : getD st2.lastFired t.name = now := by
    rw [hst2]
    exact getD_setK_self st.lastFired t.name now
  refine ⟨ha, ?_, ?_, ?_⟩
  · intro text2 t2 tr kw2 st3 hwin hb heqt
    rw [heqt] at hb
    have hloop2 : checkLoop st2.lastFired t2 (toLowerStr text2) st2.triggers =
        some (t, kw2) := by
      rw [← checkKeywords_fst, hb]
    obtain ⟨-, -, -, -, htry⟩ :=
      (checkLoop_some_iff st2.lastFired t2 (toLowerStr text2) t kw2
        st2.triggers).mp hloop2
    have helig := (tryTrigger_some st2.lastFired t2 (toLowerStr text2) t kw2 htry).1
    rw [ha] at helig
    exact helig hwin
  · intro t2 hge
    rw [ha]
    exact not_lt.mpr hge
  · intro text2 t2 kw2 a b hge htr hpre hkw
    rw [checkKeywords_fst]
    apply (checkLoop_some_iff st2.lastFired t2 (toLowerStr text2) t kw2
      st2.triggers).mpr
    refine ⟨a, b, htr, hpre, ?_⟩
    rw [tryTrigger, ha, if_neg (not_lt.mpr hge), hkw]

/-- Claim C5 (amended): a trigger that has never matched reads a default
last-fired time of `0.0`, so it is cooldown-eligible exactly when
`cooldown_seconds ≤ now`: with its keyword in the text and no earlier
trigger firing, `check_keywords` matches it iff `cooldown_seconds ≤ now` —
not at every monotonic time. -/
theorem never_matched_amended (st : AnalyzerState) (text : Str) (now : ℚ)
    (t : Trigger) (kw : Str) (a b : List Trigger)
    (htr : st.triggers = a ++ t :: b)
    (hnew : getD st.lastFired t.name = 0)
    (hpre : ∀ q ∈ a, tryTrigger st.lastFired now (toLowerStr text) q = none)
    (hkw : findKw (toLowerStr text) t.keywords = some kw) :
    (checkKeywords st text now).1 = some (t, kw) ↔ t.cooldown_seconds ≤ now := by
  rw [checkKeywords_fst]
  constructor
  · intro h
    obtain ⟨-, -, -, -, htry⟩ :=
      (checkLoop_some_iff st.lastFired now (toLowerStr text) t kw st.triggers).mp h
    have helig := (tryTrigger_some st.lastFired now (toLowerStr text) t kw htry).1
    rw [hnew, sub_zero] at helig
    exact not_lt.mp helig
  · intro hC
    apply (checkLoop_some_iff st.lastFired now (toLowerStr text) t kw
      st.triggers).mpr
    refine ⟨a, b, htr, hpre, ?_⟩
    rw [tryTrigger, hnew, sub_zero, if_neg (not_lt.mpr hC), hkw]

/-- Claim C7 (amended): every transcription result that survives the noise
filter — non-empty and at least 3 characters after stripping — is recorded
into the history buffer, whether or not automatic triggers are enabled and
whether or not a trigger matched. -/
theorem nonempty_recording_amended (run : Str → ProcResult) (enabled : Bool)
    (now : ℚ) (st : AnalyzerState) (text : Str)
    (hne : text ≠ []) (hlen : ¬ (stripStr text).length < 3) :
    (pipelineStep run enabled now st text).1.history =
      addToHistory st.history text := by
  unfold pipelineStep
  rw [if_neg (by simp [hne, hlen])]
  have hhist := checkKeywords_history st text now
  cases enabled
  · rfl
  · rw [if_pos rfl]
    rcases hck : checkKeywords st text now with ⟨fst, snd⟩
    rw [hck] at hhist
    cases fst with
    | some p =>
      cases p with
      | mk t kw =>
        simp only [] at hhist
        simp [hhist]
    | none =>
      simp only [] at hhist
      simp [hhist]

/-- Claim C8: `force_trigger` neither reads nor writes the last-fired map
— the analyzer state is unchanged, so a `check_keywords` call right after
behaves exactly as before the force — and its response is generated from
the most recent history entry, or from the empty transcript when the
history is empty. -/
theorem force_trigger_independence (run : Str → ProcResult)
    (st : AnalyzerState) (t : Trigger) :
    (forceTrigger run st t).2 = st
    ∧ (forceTrigger run st t).1 =
        ⟨t, "(manual)".data, generateResponse run st.history t (st.history.getLastD [])⟩
    ∧ (∀ (text : Str) (now : ℚ),
        checkKeywords (forceTrigger run st t).2 text now =
          checkKeywords st text now) :=
  ⟨rfl, rfl, fun _ _ => rfl⟩

/-- Claim C9: when the generation subprocess exits non-zero, the pipeline
step still returns normally and its trigger result carries the inline
error text `"[Claude error: <stripped stderr>]"` as the response, flowing
onward exactly like any successful response. -/
theorem generation_error_flows (run : Str → ProcResult) (st st1 : AnalyzerState)
    (text : Str) (now : ℚ) (t : Trigger) (kw : Str)
    (hne : text ≠ []) (hlen : ¬ (stripStr text).length < 3)
    (hck : checkKeywords st text now = (some (t, kw), st1))
    (hrc : (run (buildPrompt (addToHistory st1.history text) t text)).returncode ≠ 0) :
    (pipelineStep run true now st text).2 =
      some ⟨t, kw, "[Claude error: ".data
        ++ stripStr (run (buildPrompt (addToHistory st1.history text) t text)).stderr
        ++ "]".data⟩ := by
  unfold pipelineStep
  rw [if_neg (by simp [hne, hlen]), if_pos rfl, hck]
  show some (TriggerMatch.mk t kw
      (generateResponse run (addToHistory st1.history text) t text)) = _
  unfold generateResponse
  rw [if_pos hrc]

/-- Claim C10: the prompt `generate_response` builds takes as context only
the 10 most recent history entries, newline-joined in chronological order:
the prompt equals the one built from the last 10 entries alone, and
prepending any older entries to a history that already has 10 leaves the
prompt — and hence the generated response — unchanged. -/
theorem generation_context_capped :
    (∀ (hist : List Str) (t : Trigger) (tr : Str),
        buildPrompt hist t tr =
          "Recent meeting transcript:\n".data
            ++ List.intercalate "\n".data (lastN 10 hist)
            ++ "\n\nLatest utterance: ".data ++ tr ++ "\n\n".data ++ t.prompt)
    ∧ (∀ (hist : List Str) (t : Trigger) (tr : Str),
        buildPrompt hist t tr = buildPrompt (lastN 10 hist) t tr)
    ∧ (∀ (old hist : List Str) (t : Trigger) (tr : Str), 10 ≤ hist.length →
        buildPrompt (old ++ hist) t tr = buildPrompt hist t tr)
    ∧ (∀ (run : Str → ProcResult) (hist : List Str) (t : Trigger) (tr : Str),
        generateResponse run hist t tr = generateResponse run (lastN 10 hist) t tr) := by
  have hkey : ∀ (hist : List Str) (t : Trigger) (tr : Str),
      buildPrompt hist t tr = buildPrompt (lastN 10 hist) t tr := by
    intro hist t tr
    unfold buildPrompt
    rw [lastN_lastN]
  refine ⟨fun hist t tr => rfl, hkey, ?_, ?_⟩
  · intro old hist t tr h10
    unfold buildPrompt
    rw [lastN_append_of_le 10 old hist h10]
  · intro run hist t tr
    unfold generateResponse
    rw [hkey hist t tr]

/-- A concrete trigger for the closed instances: name "standup", single
keyword "hi", 60-second cooldown. -/
def trigW : Trigger := ⟨"standup".data, ["hi".data], "respond".data, 60⟩

/-- A fresh analyzer state holding only `trigW`: nothing fired yet, empty
history. -/
def stW : AnalyzerState := ⟨[trigW], [], []⟩

/-- `stW` after `trigW` fired at monotonic time 100. -/
def st2W : AnalyzerState := ⟨[trigW], [("standup".data, 100)], []⟩

/-- A generation subprocess that fails with exit status 1 and stderr
" boom ". -/
def runFailW : Str → ProcResult := fun _ => ⟨1, "ok".data, " boom ".data⟩

/-- A generation subprocess that succeeds. -/
def runOkW : Str → ProcResult := fun _ => ⟨0, "fine".data, []⟩

theorem checkKeywordsW :
    checkKeywords stW "Hi there".data 100 = (some (trigW, "hi".data), st2W) := by
  have helig : ¬ ((100 : ℚ) - getD stW.lastFired trigW.name < trigW.cooldown_seconds) := by
    norm_num [getD, stW, trigW]
  have hfind : findKw (toLowerStr "Hi there".data) trigW.keywords = some "hi".data := by
    decide
  have hloop : checkLoop stW.lastFired 100 (toLowerStr "Hi there".data) stW.triggers
      = some (trigW, "hi".data) := by
    show checkLoop stW.lastFired 100 (toLowerStr "Hi there".data) [trigW] = _
    rw [checkLoop_cons]
    simp only [tryTrigger]
    rw [if_neg helig, hfind]
  unfold checkKeywords
  rw [hloop]
  rfl

/-- Closed instance of claim C2's theorem: `trigW` matched "Hi there" at
time 100, so its cooldown window is anchored at 100. -/
theorem cooldown_enforcement_witness :
    getD st2W.lastFired trigW.name = 100
    ∧ (∀ (text2 : Str) (t2 : ℚ) (tr : Trigger) (kw2 : Str) (st3 : AnalyzerState),
        t2 - 100 < trigW.cooldown_seconds →
        checkKeywords st2W text2 t2 = (some (tr, kw2), st3) → tr ≠ trigW)
    ∧ (∀ t2 : ℚ, trigW.cooldown_seconds ≤ t2 - 100 →
        ¬ (t2 - getD st2W.lastFired trigW.name < trigW.cooldown_seconds))
    ∧ (∀ (text2 : Str) (t2 : ℚ) (kw2 : Str) (a b : List Trigger),
        trigW.cooldown_seconds ≤ t2 - 100 →
        st2W.triggers = a ++ trigW :: b →
        (∀ q ∈ a, tryTrigger st2W.lastFired t2 (toLowerStr text2) q = none) →
        findKw (toLowerStr text2) trigW.keywords = some kw2 →
        (checkKeywords st2W text2 t2).1 = some (trigW, kw2)) :=
  cooldown_enforcement stW "Hi there".data 100 trigW "hi".data st2W checkKeywordsW

/-- Claim C5 as stated fails on the code: `trigW` has never matched
(`last_fired` is empty) and the text contains its keyword, yet at
monotonic time 30 — less than its 60-second cooldown — `check_keywords`
returns no match, because the missing entry defaults to `0.0`. -/
theorem never_matched_counterexample :
    stW.lastFired = []
    ∧ containsSub (toLowerStr "hi there".data) (toLowerStr "hi".data) = true
    ∧ (checkKeywords stW "hi there".data 30).1 = none := by
  refine ⟨rfl, by decide, ?_⟩
  rw [checkKeywords_fst]
  show checkLoop stW.lastFired 30 (toLowerStr "hi there".data) [trigW] = none
  rw [checkLoop_cons]
  simp only [tryTrigger]
  rw [if_pos (by norm_num [getD, stW, trigW])]
  rfl

/-- Closed instance of claim C5's amended theorem: at time 60 the
never-fired `trigW` (cooldown 60) does match. -/
theorem never_matched_amended_witness :
    (checkKeywords stW "Hi there".data 60).1 = some (trigW, "hi".data) :=
  (never_matched_amended stW "Hi there".data 60 trigW "hi".data [] []
    rfl rfl (by simp) (by decide)).mpr (by norm_num [trigW])

/-- Claim C7 as stated fails on the code: the transcription "hi" is
non-empty, yet the pipeline discards it as noise
(`len(text.strip()) < 3`) and the history stays unchanged instead of
receiving the text. -/
theorem nonempty_recording_counterexample :
    "hi".data ≠ []
    ∧ (pipelineStep runOkW true 100 stW "hi".data).1.history = stW.history
    ∧ addToHistory stW.history "hi".data ≠ stW.history := by
  refine ⟨by decide, ?_, by decide⟩
  unfold pipelineStep
  rw [if_pos (by right; decide)]

/-- Closed instance of claim C7's amended theorem: "abc" (3 characters
after stripping) is recorded even with triggers disabled. -/
theorem nonempty_recording_amended_witness :
    (pipelineStep runOkW false 0 stW "abc".data).1.history =
      addToHistory stW.history "abc".data :=
  nonempty_recording_amended runOkW false 0 stW "abc".data (by decide) (by decide)

/-- Closed instance of claim C9's theorem: with the failing subprocess
`runFailW`, the matched trigger's result carries the inline error text. -/
theorem generation_error_flows_witness :
    (pipelineStep runFailW true 100 stW "Hi there".data).2 =
      some ⟨trigW, "hi".data, "[Claude error: ".data
        ++ stripStr (runFailW (buildPrompt (addToHistory st2W.history "Hi there".data)
            trigW "Hi there".data)).stderr
        ++ "]".data⟩ :=
  generation_error_flows runFailW stW st2W "Hi there".data 100 trigW "hi".data
    (by decide) (by decide) checkKeywordsW (by decide)

end StandupBot
